import Mathlib

/-!
Verification development for the AI-insight generation and reconciliation
engine of the `tools.garmin.dailysync` repository.

The TypeScript sources are shallowly embedded:

* text (activity descriptions, model output, comments) is `List Char`;
* JavaScript numbers carrying confidences are modelled as `Rat`, with `none`
  standing for `NaN` (`Option Rat`);
* timestamps are integer epoch milliseconds; the civil-date extraction
  performed by `toISOString().split('T')[0]` is modelled as floor division
  by 86 400 000;
* the asynchronous effects (SQLite store, Garmin HTTP client, Gemini API)
  are explicit: store state is passed and returned, remote reads come from
  an environment oracle, generation outcomes come from a per-attempt oracle,
  and thrown exceptions are `Except Unit`.
-/

/-- Text, as a list of unicode scalars (model of a JavaScript string). -/
abbrev Str := List Char

/-- Whitespace recognised by the model of JavaScript regex class and trim. -/
def isWS (c : Char) : Bool :=
  c = ' ' || c = '\t' || c = '\n' || c = '\r' || c = '\x0b' || c = '\x0c'

/-- The pattern `pat` occurs in `s` starting at index `p`. -/
def matchesAt (s pat : Str) (p : Nat) : Bool :=
  decide ((s.drop p).take pat.length = pat)

/-- First index at or after `k` (scanning at most `fuel` positions) where the
Boolean position test holds. -/
def scanB (test : Nat → Bool) : Nat → Nat → Option Nat
  | _, 0 => none
  | k, fuel + 1 => if test k then some k else scanB test (k + 1) fuel

/-- First index at or after `k` where the positional matcher returns a value,
together with that value. -/
def scanO {α : Type} (test : Nat → Option α) : Nat → Nat → Option (Nat × α)
  | _, 0 => none
  | k, fuel + 1 =>
    match test k with
    | some v => some (k, v)
    | none => scanO test (k + 1) fuel

/-- Index of the leftmost occurrence of `pat` in `s` (model of
`String.prototype.indexOf` and of leftmost regex matching). -/
def findSub (s pat : Str) : Option Nat :=
  scanB (matchesAt s pat) 0 (s.length + 1)

/-- Index of the leftmost occurrence of `pat` in `s` at or after `k`. -/
def findSubFrom (s pat : Str) (k : Nat) : Option Nat :=
  scanB (matchesAt s pat) k (s.length + 1 - k)

/-- Model of `String.prototype.includes`. -/
def containsSub (s pat : Str) : Bool :=
  (findSub s pat).isSome

/-- Number of occurrences of `pat` in `s` (distinct starting positions). -/
def countSub (pat : Str) : Str → Nat
  | [] => if matchesAt [] pat 0 then 1 else 0
  | c :: rest => (if matchesAt (c :: rest) pat 0 then 1 else 0) + countSub pat rest

/-- Drop trailing whitespace (second half of `String.prototype.trim`). -/
def dropTrailWS : Str → Str
  | [] => []
  | c :: rest =>
    let r := dropTrailWS rest
    if r = [] ∧ isWS c then [] else c :: r

/-- Model of `String.prototype.trim`. -/
def trimStr (s : Str) : Str :=
  dropTrailWS (s.dropWhile isWS)

/-- No occurrence of `pat` anywhere in `s`. -/
def NoOcc (s pat : Str) : Prop :=
  ∀ p, matchesAt s pat p = false

theorem scanB_some {test : Nat → Bool} :
    ∀ {fuel k m}, scanB test k fuel = some m →
      test m = true ∧ k ≤ m ∧ m < k + fuel ∧ ∀ p, k ≤ p → p < m → test p = false := by
  intro fuel
  induction fuel with
  | zero => intro k m h; simp [scanB] at h
  | succ f ih =>
    intro k m h
    simp only [scanB] at h
    by_cases hk : test k = true
    · rw [if_pos hk] at h
      cases h
      exact ⟨hk, le_refl _, by omega, fun p h1 h2 => absurd h1 (by omega)⟩
    · rw [if_neg hk] at h
      obtain ⟨h1, h2, h3, h4⟩ := ih h
      refine ⟨h1, by omega, by omega, fun p hp1 hp2 => ?_⟩
      rcases Nat.eq_or_lt_of_le hp1 with rfl | hlt
      · simpa using hk
      · exact h4 p hlt hp2

theorem scanB_none {test : Nat → Bool} :
    ∀ {fuel k}, scanB test k fuel = none →
      ∀ p, k ≤ p → p < k + fuel → test p = false := by
  intro fuel
  induction fuel with
  | zero => intro k _ p h1 h2; omega
  | succ f ih =>
    intro k h p h1 h2
    simp only [scanB] at h
    by_cases hk : test k = true
    · rw [if_pos hk] at h; cases h
    · rw [if_neg hk] at h
      rcases Nat.eq_or_lt_of_le h1 with rfl | hlt
      · simpa using hk
      · exact ih h p hlt (by omega)

theorem scanB_eq_some {test : Nat → Bool} :
    ∀ {fuel k m}, (∀ p, k ≤ p → p < m → test p = false) → test m = true →
      k ≤ m → m < k + fuel → scanB test k fuel = some m := by
  intro fuel
  induction fuel with
  | zero => intro k m _ _ _ h; omega
  | succ f ih =>
    intro k m hlow hm hk hub
    simp only [scanB]
    rcases Nat.eq_or_lt_of_le hk with rfl | hlt
    · rw [if_pos hm]
    · rw [if_neg (by simp [hlow k (le_refl k) hlt])]
      exact ih (fun p h1 h2 => hlow p (by omega) h2) hm (by omega) (by omega)

theorem scanO_some {α : Type} {test : Nat → Option α} :
    ∀ {fuel k m v}, scanO test k fuel = some (m, v) →
      test m = some v ∧ k ≤ m ∧ ∀ p, k ≤ p → p < m → test p = none := by
  intro fuel
  induction fuel with
  | zero => intro k m v h; simp [scanO] at h
  | succ f ih =>
    intro k m v h
    simp only [scanO] at h
    cases hk : test k with
    | some w =>
      rw [hk] at h
      cases h
      exact ⟨hk, le_refl _, fun p h1 h2 => absurd h1 (by omega)⟩
    | none =>
      rw [hk] at h
      obtain ⟨h1, h2, h3⟩ := ih h
      refine ⟨h1, by omega, fun p hp1 hp2 => ?_⟩
      rcases Nat.eq_or_lt_of_le hp1 with rfl | hlt
      · exact hk
      · exact h3 p hlt hp2

theorem scanO_eq_some {α : Type} {test : Nat → Option α} :
    ∀ {fuel k m v}, (∀ p, k ≤ p → p < m → test p = none) → test m = some v →
      k ≤ m → m < k + fuel → scanO test k fuel = some (m, v) := by
  intro fuel
  induction fuel with
  | zero => intro k m v _ _ _ h; omega
  | succ f ih =>
    intro k m v hlow hm hk hub
    simp only [scanO]
    rcases Nat.eq_or_lt_of_le hk with rfl | hlt
    · rw [hm]
    · rw [hlow k (le_refl k) hlt]
      exact ih (fun p h1 h2 => hlow p (by omega) h2) hm (by omega) (by omega)

theorem matchesAt_true_iff {s pat : Str} {p : Nat} :
    matchesAt s pat p = true ↔ (s.drop p).take pat.length = pat := by
  simp [matchesAt]

theorem matchesAt_bound {s pat : Str} {p : Nat} (hpat : pat ≠ [])
    (h : matchesAt s pat p = true) : p + pat.length ≤ s.length := by
  rw [matchesAt_true_iff] at h
  have hl := congrArg List.length h
  rw [List.length_take, List.length_drop] at hl
  have hp : 0 < pat.length := List.length_pos.mpr hpat
  omega

theorem matchesAt_oob {s pat : Str} {p : Nat} (hpat : pat ≠ [])
    (h : s.length < p + pat.length) : matchesAt s pat p = false := by
  cases hm : matchesAt s pat p with
  | false => rfl
  | true => exact absurd (matchesAt_bound hpat hm) (by omega)

theorem matchesAt_cons_succ {c : Char} {s pat : Str} {p : Nat} :
    matchesAt (c :: s) pat (p + 1) = matchesAt s pat p := by
  simp [matchesAt, List.drop_succ_cons]

/-- An occurrence inside the left part of an append is an occurrence there. -/
theorem matchesAt_append_left {a b pat : Str} {p : Nat}
    (h : p + pat.length ≤ a.length) :
    matchesAt (a ++ b) pat p = matchesAt a pat p := by
  simp only [matchesAt]
  rw [List.drop_append_of_le_length (by omega),
    List.take_append_of_le_length (by simp [List.length_drop]; omega)]

/-- An occurrence inside the right part of an append. -/
theorem matchesAt_append_right {a b pat : Str} {p : Nat} (h : a.length ≤ p) :
    matchesAt (a ++ b) pat p = matchesAt b pat (p - a.length) := by
  obtain ⟨q, rfl⟩ : ∃ q, p = a.length + q := ⟨p - a.length, by omega⟩
  simp only [matchesAt, List.drop_append, Nat.add_sub_cancel_left]

/-- A pattern free of `'\n'` cannot straddle a seam whose right side starts
with `'\n'`. -/
theorem matchesAt_no_straddle {a b pat : Str} {p : Nat}
    (hnl : ∀ c ∈ pat, c ≠ '\n') (hb : b.head? = some '\n')
    (h1 : p < a.length) (h2 : a.length < p + pat.length) :
    matchesAt (a ++ b) pat p = false := by
  by_contra hc
  have hm : (List.drop p (a ++ b)).take pat.length = pat := by
    rw [← matchesAt_true_iff]; revert hc; cases matchesAt (a ++ b) pat p <;> simp
  have hget : pat[a.length - p]? = (a ++ b)[a.length]? := by
    conv_lhs => rw [← hm]
    rw [List.getElem?_take_of_lt (by omega), List.getElem?_drop]
    congr 1; omega
  rw [List.getElem?_append_right (le_refl _)] at hget
  simp at hget
  rw [← List.head?_eq_getElem?, hb] at hget
  exact hnl '\n' (List.getElem?_mem hget) rfl

theorem matchesAt_take {s pat : Str} {m p : Nat} (hpat : pat ≠ [])
    (h : matchesAt (s.take m) pat p = true) :
    matchesAt s pat p = true ∧ p + pat.length ≤ m := by
  rw [matchesAt_true_iff] at h
  rw [List.drop_take, List.take_take] at h
  have hp : 0 < pat.length := List.length_pos.mpr hpat
  have hl := congrArg List.length h
  rw [List.length_take, List.length_drop] at hl
  have hmin : min pat.length (m - p) = pat.length := by omega
  rw [hmin] at h
  exact ⟨matchesAt_true_iff.mpr h, by omega⟩

theorem noOcc_nil {pat : Str} (hpat : pat ≠ []) : NoOcc [] pat := by
  intro p
  exact matchesAt_oob hpat (by have := List.length_pos.mpr hpat; simp; omega)

theorem noOcc_take {s pat : Str} (hpat : pat ≠ []) (h : NoOcc s pat) (m : Nat) :
    NoOcc (s.take m) pat := by
  intro p
  cases hm : matchesAt (s.take m) pat p with
  | false => rfl
  | true =>
    have := (matchesAt_take hpat hm).1
    rw [h p] at this
    exact this.symm

theorem noOcc_append {a b pat : Str} (hpat : pat ≠ [])
    (hnl : ∀ c ∈ pat, c ≠ '\n') (hb : b = [] ∨ b.head? = some '\n')
    (ha : NoOcc a pat) (hbn : NoOcc b pat) : NoOcc (a ++ b) pat := by
  rcases hb with rfl | hb
  · intro p; rw [List.append_nil]; exact ha p
  intro p
  by_cases h1 : p + pat.length ≤ a.length
  · rw [matchesAt_append_left h1]; exact ha p
  · by_cases h2 : a.length ≤ p
    · rw [matchesAt_append_right h2]; exact hbn _
    · exact matchesAt_no_straddle hnl hb (by omega) (by omega)

theorem noOcc_of_append_right {a b pat : Str} (h : NoOcc (a ++ b) pat) :
    NoOcc b pat := by
  intro p
  have := h (a.length + p)
  rwa [matchesAt_append_right (by omega), Nat.add_sub_cancel_left] at this

theorem noOcc_of_append_left {a b pat : Str} (hpat : pat ≠ [])
    (h : NoOcc (a ++ b) pat) : NoOcc a pat := by
  intro p
  cases hm : matchesAt a pat p with
  | false => rfl
  | true =>
    have hb := matchesAt_bound hpat hm
    have h2 := h p
    rw [matchesAt_append_left hb, hm] at h2
    exact h2

theorem noOcc_dropWhile {s pat : Str} (q : Char → Bool) (h : NoOcc s pat) :
    NoOcc (s.dropWhile q) pat := by
  obtain ⟨a, ha⟩ := List.dropWhile_suffix (l := s) q
  exact noOcc_of_append_right (a := a) (by rw [ha]; exact h)

theorem dropTrailWS_append : ∀ s : Str, ∃ u, s = dropTrailWS s ++ u := by
  intro s
  induction s with
  | nil => exact ⟨[], rfl⟩
  | cons c rest ih =>
    obtain ⟨u, hu⟩ := ih
    simp only [dropTrailWS]
    by_cases h : dropTrailWS rest = [] ∧ isWS c = true
    · rw [if_pos h]; exact ⟨c :: rest, rfl⟩
    · rw [if_neg h]; exact ⟨u, by rw [List.cons_append, ← hu]⟩

theorem noOcc_trimStr {s pat : Str} (hpat : pat ≠ []) (h : NoOcc s pat) :
    NoOcc (trimStr s) pat := by
  have h1 := noOcc_dropWhile isWS h
  obtain ⟨u, hu⟩ := dropTrailWS_append (s.dropWhile isWS)
  have h2 : NoOcc (dropTrailWS (s.dropWhile isWS) ++ u) pat := by
    rw [← hu]; exact h1
  exact noOcc_of_append_left hpat h2

theorem countSub_nil {pat : Str} (hpat : pat ≠ []) : countSub pat [] = 0 := by
  have hm : matchesAt [] pat 0 = false := by
    simp only [matchesAt, List.drop_nil, List.take_nil, decide_eq_false_iff_not]
    exact fun hc => hpat hc.symm
  simp [countSub, hm]

theorem countSub_cons (pat : Str) (c : Char) (rest : Str) :
    countSub pat (c :: rest) =
      (if matchesAt (c :: rest) pat 0 then 1 else 0) + countSub pat rest := rfl

theorem countSub_eq_zero {s pat : Str} (hpat : pat ≠ []) (h : NoOcc s pat) :
    countSub pat s = 0 := by
  induction s with
  | nil => exact countSub_nil hpat
  | cons c rest ih =>
    have hr : NoOcc rest pat := by
      intro p
      have := h (p + 1)
      rwa [matchesAt_cons_succ] at this
    rw [countSub_cons, h 0, ih hr]
    simp

theorem countSub_append_nl {pat : Str} (hpat : pat ≠ [])
    (hnl : ∀ ch ∈ pat, ch ≠ '\n') {b : Str} (hb : b = [] ∨ b.head? = some '\n') :
    ∀ a, countSub pat (a ++ b) = countSub pat a + countSub pat b := by
  intro a
  induction a with
  | nil => rw [List.nil_append, countSub_nil hpat, Nat.zero_add]
  | cons c rest ih =>
    rw [List.cons_append, countSub_cons, countSub_cons, ih]
    have hca : c :: (rest ++ b) = (c :: rest) ++ b := (List.cons_append ..).symm
    have hhead : matchesAt (c :: (rest ++ b)) pat 0 = matchesAt (c :: rest) pat 0 := by
      rcases hb with rfl | hb
      · rw [List.append_nil]
      by_cases hlen : pat.length ≤ rest.length + 1
      · rw [hca]; exact matchesAt_append_left (by simp; omega)
      · rw [hca, matchesAt_no_straddle hnl hb (by simp) (by simp; omega),
          matchesAt_oob hpat (by simp; omega)]
    rw [hhead]; omega

theorem countSub_append_headNe {h0 : Char} {pt b : Str} :
    ∀ a, (∀ ch ∈ a, ch ≠ h0) →
      countSub (h0 :: pt) (a ++ b) = countSub (h0 :: pt) b := by
  intro a
  induction a with
  | nil => intro _; rw [List.nil_append]
  | cons c rest ih =>
    intro hne
    rw [List.cons_append, countSub_cons]
    have hm : matchesAt (c :: (rest ++ b)) (h0 :: pt) 0 = false := by
      cases hmm : matchesAt (c :: (rest ++ b)) (h0 :: pt) 0 with
      | false => rfl
      | true =>
        rw [matchesAt_true_iff] at hmm
        rw [List.drop_zero, List.length_cons, List.take_succ_cons] at hmm
        injection hmm with hc _
        exact absurd hc (hne c (by simp))
    rw [hm, ih (fun ch hch => hne ch (by simp [hch]))]
    simp

theorem head?_take_succ (x : Str) (n : Nat) : (x.take (n + 1)).head? = x.head? := by
  cases x <;> simp

/-- Primary insight marker written by the engine
(start of every posted comment). -/
def markerL : Str := "🤖 AI Insights".toList

/-- Secondary marker recognised by the detection code. -/
def marker2L : Str := "AI Insights (".toList

/-- The fixed visual divider inserted between description and comment. -/
def sepL : Str := "\n\n---\n\n".toList

/-- Model of the global regex replacement
`description.replace(/(\n\n---\n\n)?🤖 AI Insights[^]*?(?=\n\n---\n\n|$)/g, '')`:
each block starts at the marker (absorbing one immediately preceding
divider) and extends to just before the next divider, or to the end. -/
def stripBlocksF : Nat → Str → Str
  | 0, s => s
  | fuel + 1, s =>
    match findSub s markerL with
    | none => s
    | some i =>
      let start := if 7 ≤ i ∧ matchesAt s sepL (i - 7) = true then i - 7 else i
      let e := (findSubFrom s sepL (i + markerL.length)).getD s.length
      s.take start ++ stripBlocksF fuel (s.drop e)

/-- Model of the global regex replacement
`description.replace(/(\n\n---\n\n)?🤖 AI Insights[^]*?(?=\n\n---\n\n|$)/g, '')`:
each block starts at the marker (absorbing one immediately preceding
divider) and extends to just before the next divider, or to the end.
One block consumes at least 13 characters, so `s.length` steps suffice. -/
def stripBlocks (s : Str) : Str := stripBlocksF s.length s

theorem stripBlocksF_of_none {fuel : Nat} {s : Str} (h : findSub s markerL = none) :
    stripBlocksF (fuel + 1) s = s := by
  simp [stripBlocksF, h]

theorem stripBlocksF_of_some {fuel : Nat} {s : Str} {i : Nat}
    (h : findSub s markerL = some i) :
    stripBlocksF (fuel + 1) s =
      s.take (if 7 ≤ i ∧ matchesAt s sepL (i - 7) = true then i - 7 else i) ++
        stripBlocksF fuel
          (s.drop ((findSubFrom s sepL (i + markerL.length)).getD s.length)) := by
  simp [stripBlocksF, h]

theorem drop_head_of_sep {s : Str} {j : Nat} (h : matchesAt s sepL j = true) :
    (s.drop j).head? = some '\n' := by
  rw [matchesAt_true_iff, show sepL.length = 7 from by decide] at h
  have h2 := congrArg List.head? h
  rw [show (7 : Nat) = 6 + 1 from rfl, head?_take_succ] at h2
  rw [h2]
  decide

theorem drop_sep_tail_shape (s : Str) (k : Nat) :
    s.drop ((findSubFrom s sepL k).getD s.length) = [] ∨
      (s.drop ((findSubFrom s sepL k).getD s.length)).head? = some '\n' := by
  cases hfs : findSubFrom s sepL k with
  | none => left; simp [List.drop_length]
  | some j =>
    right
    simp only [Option.getD_some]
    exact drop_head_of_sep (scanB_some hfs).1

theorem stripBlocksF_head_shape : ∀ fuel : Nat, ∀ s : Str,
    (s = [] ∨ s.head? = some '\n') →
    (stripBlocksF fuel s = [] ∨ (stripBlocksF fuel s).head? = some '\n') := by
  intro fuel
  induction fuel with
  | zero => intro s hh; exact hh
  | succ n ih =>
    intro s hh
    cases hf : findSub s markerL with
    | none => rw [stripBlocksF_of_none hf]; exact hh
    | some i =>
      rw [stripBlocksF_of_some hf]
      have hm : matchesAt s markerL i = true := (scanB_some hf).1
      have hml : markerL.length = 13 := by decide
      have hbound : i + markerL.length ≤ s.length := matchesAt_bound (by decide) hm
      rcases hh with rfl | hh
      · exfalso
        rw [hml] at hbound
        simp only [List.length_nil] at hbound
        omega
      have hrest := ih _ (drop_sep_tail_shape s (i + markerL.length))
      by_cases h0 : (if 7 ≤ i ∧ matchesAt s sepL (i - 7) = true then i - 7 else i) = 0
      · rw [h0, List.take_zero, List.nil_append]
        exact hrest
      · right
        obtain ⟨c, s2, rfl⟩ : ∃ c s2, s = c :: s2 := by
          cases s with
          | nil => cases hh
          | cons a t => exact ⟨a, t, rfl⟩
        have hc : c = '\n' := by
          simp at hh
          exact hh
        obtain ⟨m, hmeq⟩ : ∃ m, (if 7 ≤ i ∧ matchesAt (c :: s2) sepL (i - 7) = true then i - 7 else i) = m + 1 :=
          Nat.exists_eq_succ_of_ne_zero h0
        rw [hmeq, List.take_succ_cons, List.cons_append]
        simp [hc]

theorem stripBlocksF_noOcc : ∀ fuel : Nat, ∀ s : Str, s.length ≤ fuel →
    NoOcc (stripBlocksF fuel s) markerL := by
  intro fuel
  induction fuel with
  | zero =>
    intro s hs
    have hnil : s = [] := List.length_eq_zero.mp (by omega)
    subst hnil
    exact noOcc_nil (by decide)
  | succ n ih =>
    intro s hs
    cases hf : findSub s markerL with
    | none =>
      rw [stripBlocksF_of_none hf]
      intro p
      by_cases hp : p ≤ s.length
      · exact scanB_none hf p (by omega) (by omega)
      · refine matchesAt_oob (by decide) ?_
        have hq : (0 : Nat) < markerL.length := by decide
        omega
    | some i =>
      rw [stripBlocksF_of_some hf]
      obtain ⟨hm, -, -, hmin⟩ := scanB_some hf
      have hml : markerL.length = 13 := by decide
      have hbound : i + markerL.length ≤ s.length := matchesAt_bound (by decide) hm
      have hTake : NoOcc (s.take (if 7 ≤ i ∧ matchesAt s sepL (i - 7) = true then i - 7 else i)) markerL := by
        have hstart : (if 7 ≤ i ∧ matchesAt s sepL (i - 7) = true then i - 7 else i) ≤ i := by
          split <;> omega
        intro p
        cases hmm : matchesAt (s.take (if 7 ≤ i ∧ matchesAt s sepL (i - 7) = true then i - 7 else i)) markerL p with
        | false => rfl
        | true =>
          obtain ⟨hms, hple⟩ := matchesAt_take (by decide) hmm
          have := hmin p (by omega) (by omega)
          rw [hms] at this
          exact this
      have hlen : (s.drop ((findSubFrom s sepL (i + markerL.length)).getD s.length)).length ≤ n := by
        cases hfs : findSubFrom s sepL (i + markerL.length) with
        | none =>
          simp only [Option.getD_none, List.drop_length, List.length_nil]
          omega
        | some j =>
          have hj := (scanB_some hfs).2.1
          simp only [Option.getD_some, List.length_drop]
          omega
      exact noOcc_append (by decide) (by decide)
        (stripBlocksF_head_shape n _ (drop_sep_tail_shape s (i + markerL.length)))
        hTake (ih _ hlen)

theorem stripBlocks_noOcc (s : Str) : NoOcc (stripBlocks s) markerL :=
  stripBlocksF_noOcc s.length s (le_refl _)

theorem stripBlocks_trim_noOcc (s : Str) : NoOcc (trimStr (stripBlocks s)) markerL :=
  noOcc_trimStr (by decide) (stripBlocks_noOcc s)

/-- ASCII-lowering used to model the case-insensitive regex flag. -/
def lowc (c : Char) : Char := c.toLower

/-- Lower-case tail of the confidence tag literal. -/
def confLit : Str := "confidence:".toList

/-- Character class `[0-9.]`. -/
def isDigitDot (c : Char) : Bool := c.isDigit || c = '.'

/-- Match of the regex `\[CONFIDENCE:\s*([0-9.]+)\]` (flag `i`) at position
`p` of `s`; returns the end position (exclusive) and the captured group. -/
def matchConfAt (s : Str) (p : Nat) : Option (Nat × Str) :=
  let r := s.drop p
  if r.head? = some '[' ∧ ((r.drop 1).take 11).map lowc = confLit then
    let r2 := r.drop 12
    let wsn := (r2.takeWhile isWS).length
    let r3 := r2.drop wsn
    let num := r3.takeWhile isDigitDot
    if num ≠ [] ∧ (r3.drop num.length).head? = some ']' then
      some (p + 12 + wsn + num.length + 1, num)
    else none
  else none

/-- Leftmost match of the confidence-tag regex: (start, end, capture). -/
def findConf (s : Str) : Option (Nat × Nat × Str) :=
  scanO (matchConfAt s) 0 (s.length + 1)

/-- Decimal value of a digit string. -/
def digitsToNat (s : Str) : Nat :=
  s.foldl (fun acc c => acc * 10 + (c.toNat - '0'.toNat)) 0

/-- Model of JavaScript `parseFloat` applied to a capture of `[0-9.]+`:
integer digits, then an optional fraction after the first dot; a capture
with no digits at all parses to NaN, modelled as `none`. -/
def parseFloatM (s : Str) : Option Rat :=
  let ip := s.takeWhile Char.isDigit
  let r := s.drop ip.length
  let fp := if r.head? = some '.' then (r.drop 1).takeWhile Char.isDigit else []
  if ip = [] ∧ fp = [] then none
  else some (mkRat (digitsToNat ip * 10 ^ fp.length + digitsToNat fp) (10 ^ fp.length))

/-- Model of `Math.max` on non-NaN numbers. -/
def jsMax (a b : Rat) : Rat := if a ≤ b then b else a

/-- Model of `Math.min` on non-NaN numbers. -/
def jsMin (a b : Rat) : Rat := if a ≤ b then a else b

/-- Model of `parseConfidence` (ai_insights.ts): extract the confidence tag,
strip the first tag occurrence from the text and trim, clamp the parsed
value to [0,1] (`Math.min(1.0, Math.max(0.0, x))`, which propagates NaN);
without a tag return the text unchanged with default confidence 0.7. -/
def parseConfidence (s : Str) : Str × Option Rat :=
  match findConf s with
  | none => (s, some (mkRat 7 10))
  | some (start, stop, num) =>
    (trimStr (s.take start ++ s.drop stop),
      (parseFloatM num).map (fun q => jsMin 1 (jsMax 0 q)))

/-- A remote Garmin activity as seen by the comment-posting code. -/
structure RemoteActivity where
  activityName : String
  description : Option Str
deriving DecidableEq

/-- The substring test used by the code to decide that an insight is
already present in a description. -/
def hasInsightMarker (d : Str) : Bool :=
  containsSub d markerL || containsSub d marker2L

/-- Model of `addActivityComment` (garmin_common.ts): `fetchR` is the outcome
of `client.getActivity` (`none` = the call threw, `some none` = falsy
activity), `postOk` tells whether the final `client.client.post` succeeds.
Returns the boolean result of the function, together with the description
payload of the issued post request — `none` when no post was issued. -/
def addActivityComment (fetchR : Option (Option RemoteActivity)) (postOk : Bool)
    (comment : Str) (forceCheck : Bool) : Bool × Option Str :=
  match fetchR with
  | none => (false, none)
  | some none => (false, none)
  | some (some act) =>
    let currentDescription := act.description.getD []
    let hasExistingInsight := hasInsightMarker currentDescription
    if hasExistingInsight ∧ ¬ forceCheck then
      (true, none)
    else
      let stripped :=
        if hasExistingInsight ∧ forceCheck then trimStr (stripBlocks currentDescription)
        else currentDescription
      let sep := if stripped ≠ [] then sepL else []
      (postOk, some (stripped ++ sep ++ comment))

/-- The remote service, as an oracle per activity identifier: the outcome of
fetching the activity and the outcome of posting to it. -/
structure RemoteEnv where
  fetch : String → Option (Option RemoteActivity)
  postOk : String → Bool

/-- Model of `hasActivityInsight` (garmin_common.ts): any fetch error is
caught and reported as `false`; a missing description counts as absent. -/
def hasActivityInsight (env : RemoteEnv) (activityId : String) : Bool :=
  match env.fetch activityId with
  | none => false
  | some oa => hasInsightMarker ((oa.bind (fun a => a.description)).getD [])

/-- Environment configuration consumed by the engine:
`AI_INSIGHTS_ENABLED` and `GEMINI_API_KEY`. -/
structure Config where
  enabled : Bool
  apiKey : String
deriving DecidableEq

/-- Model of `isAIInsightsEnabled` (ai_insights.ts): false when the flag is
off or the credential is falsy (empty). -/
def isAIInsightsEnabled (cfg : Config) : Bool :=
  if ¬ cfg.enabled then false
  else if cfg.apiKey = "" then false
  else true

/-- The model identifier constant `GEMINI_MODEL`. -/
def GEMINI_MODEL : String := "gemini-2.5-flash-lite"

/-- Retry/rate-limit constants from ai_insights.ts. -/
def MAX_RETRIES : Nat := 3

def BASE_DELAY_MS : Nat := 2000

def MIN_REQUEST_INTERVAL_MS : Nat := 1000

/-- An activity as consumed by the insight engine. The identifier is a
string or a number; `startTimeLocal` is the epoch-millisecond reading of
the local ISO timestamp. Only the fields the embedded code inspects are
kept. -/
structure GarminActivity where
  activityId : Sum Nat String
  activityName : String
  typeKey : Option String
  startTimeLocal : Int
  distance : Option Rat := none
  averageSpeed : Option Rat := none
  averageHR : Option Rat := none
deriving DecidableEq

/-- `String(activityId)` — the normalization applied before keying. -/
def idStr : Sum Nat String → String
  | Sum.inl n => toString n
  | Sum.inr s => s

/-- The store/remote key of an activity. -/
def activityKey (a : GarminActivity) : String := idStr a.activityId

/-- Milliseconds per civil day. -/
def dayMs : Int := 86400000

/-- Model of `getDateString` (`toISOString().split('T')[0]`): the civil day
index of a timestamp. -/
def getDateString (t : Int) : Int := t.fdiv dayMs

/-- Historical context for trending analysis. -/
structure HistoricalContext where
  yesterdayActivity : Option GarminActivity
  lastWeekActivity : Option GarminActivity
  recentActivities : List GarminActivity
deriving DecidableEq

/-- Insertion step of the descending sort by start time
(`sort((a, b) => b.startTimeLocal - a.startTimeLocal)`). -/
def insertByStartDesc (x : GarminActivity) : List GarminActivity → List GarminActivity
  | [] => [x]
  | y :: t =>
    if y.startTimeLocal < x.startTimeLocal then x :: y :: t
    else y :: insertByStartDesc x t

/-- Sort a list of activities by start time, most recent first. -/
def sortByStartDesc : List GarminActivity → List GarminActivity
  | [] => []
  | x :: t => insertByStartDesc x (sortByStartDesc t)

/-- Model of `getHistoricalContext` (ai_insights.ts): filter to same-type
candidates with a different stringified identifier, pick the first
candidate dated exactly one civil day earlier, the first candidate in the
window 8 to 6 days earlier, and the 7 most recent strictly-earlier
candidates. -/
def getHistoricalContext (currentActivity : GarminActivity)
    (allActivities : List GarminActivity) : HistoricalContext :=
  let activityType := currentActivity.typeKey
  let currentDate := currentActivity.startTimeLocal
  let sameTypeActivities := allActivities.filter (fun a =>
    decide (a.typeKey = activityType) &&
      decide (¬ (idStr a.activityId = idStr currentActivity.activityId)))
  let yesterdayStr := getDateString (currentDate - dayMs)
  let lastWeekStart := currentDate - 8 * dayMs
  let lastWeekEnd := currentDate - 6 * dayMs
  let yesterdayActivity := sameTypeActivities.find? (fun a =>
    decide (getDateString a.startTimeLocal = yesterdayStr))
  let lastWeekActivity := sameTypeActivities.find? (fun a =>
    decide (lastWeekStart ≤ a.startTimeLocal) && decide (a.startTimeLocal ≤ lastWeekEnd))
  let recentActivities :=
    (sortByStartDesc (sameTypeActivities.filter (fun a =>
      decide (a.startTimeLocal < currentDate)))).take 7
  ⟨yesterdayActivity, lastWeekActivity, recentActivities⟩

/-- Structured detail entry of a provider error
(`error.errorDetails[i]` with `'@type'` and `retryDelay`). -/
structure ErrorDetail where
  atType : Option String
  retryDelay : Option String
deriving DecidableEq

/-- Outcome of one `model.generateContent` call: the response text, or a
thrown error with optional status, statusText and structured details. -/
inductive CallOutcome where
  | success (text : Str)
  | failure (status : Option Nat) (statusText : Option String)
      (errorDetails : Option (List ErrorDetail))
deriving DecidableEq

/-- The `error?.status === 429 || error?.statusText === 'Too Many Requests'`
classification. -/
def isRateLimited : CallOutcome → Bool
  | CallOutcome.success _ => false
  | CallOutcome.failure st stx _ =>
    decide (st = some 429) || decide (stx = some "Too Many Requests")

/-- Error details of an outcome (none for a success). -/
def detailsOf : CallOutcome → Option (List ErrorDetail)
  | CallOutcome.success _ => none
  | CallOutcome.failure _ _ ed => ed

/-- First maximal digit run of a string (the regex `(\d+)`). -/
def firstDigitRun : Str → Option Str
  | [] => none
  | c :: r =>
    if c.isDigit then some (c :: r.takeWhile Char.isDigit)
    else firstDigitRun r

/-- Provider-suggested retry delay in milliseconds, when parseable: find the
detail whose `'@type'` includes `RetryInfo`, read its `retryDelay` string,
take its first digit run as seconds, multiply by 1000. -/
def hintMs (ed : Option (List ErrorDetail)) : Option Nat :=
  match ed with
  | none => none
  | some ds =>
    match ds.find? (fun d =>
        match d.atType with
        | some t => containsSub t.toList ("RetryInfo".toList)
        | none => false) with
    | none => none
    | some d =>
      match d.retryDelay with
      | none => none
      | some s => (firstDigitRun s.toList).map (fun r => digitsToNat r * 1000)

/-- Trace of one `generateActivityInsights` run: number of API calls made
and the retry sleeps performed (in order, in milliseconds). -/
structure GenTrace where
  apiCalls : Nat
  retrySleeps : List Nat
deriving DecidableEq

/-- Result of a successful generation. -/
structure AIInsightResult where
  insight : Str
  model : String
  confidence : Option Rat
deriving DecidableEq

/-- The retry loop of `generateActivityInsights`: `attempt` is the 1-based
attempt counter, the second argument the remaining iterations
(`MAX_RETRIES - attempt + 1`), and `oc` gives the outcome of each attempt.
A success parses the trimmed text; a failure retries only when rate-limited
and `attempt < MAX_RETRIES`, sleeping the provider hint or
`BASE_DELAY_MS * 2 ^ (attempt - 1)`. -/
def genAttempts (oc : Nat → CallOutcome) : Nat → Nat → GenTrace × Option AIInsightResult
  | _, 0 => (⟨0, []⟩, none)
  | attempt, rem + 1 =>
    match oc attempt with
    | CallOutcome.success text =>
      let pc := parseConfidence (trimStr text)
      (⟨1, []⟩, some ⟨pc.1, GEMINI_MODEL, pc.2⟩)
    | CallOutcome.failure st stx ed =>
      if (decide (st = some 429) || decide (stx = some "Too Many Requests")) &&
          decide (attempt < MAX_RETRIES) then
        let d := (hintMs ed).getD (BASE_DELAY_MS * 2 ^ (attempt - 1))
        let rest := genAttempts oc (attempt + 1) rem
        (⟨rest.1.apiCalls + 1, d :: rest.1.retrySleeps⟩, rest.2)
      else (⟨1, []⟩, none)

/-- Model of `generateActivityInsights` (ai_insights.ts): return `none` when
the feature is disabled, otherwise compute the historical context exactly
when more than one candidate was supplied and run the retry loop. -/
def generateActivityInsights (cfg : Config) (oc : Nat → CallOutcome)
    (activity : GarminActivity) (allActivities : Option (List GarminActivity)) :
    GenTrace × Option AIInsightResult :=
  if ¬ isAIInsightsEnabled cfg then (⟨0, []⟩, none)
  else
    let _historicalContext :=
      match allActivities with
      | some l => if 1 < l.length then some (getHistoricalContext activity l) else none
      | none => none
    genAttempts oc 1 MAX_RETRIES

/-- A row of the `ai_insights` table. -/
structure AIInsightData where
  activityId : String
  activityName : String
  insight : Str
  model : String
  confidence : Option Rat
deriving DecidableEq

/-- The `ai_insights` table, in insertion (rowid) order. -/
abbrev Store := List AIInsightData

/-- Model of `hasAIInsight` (sqlite.ts): a row with this key exists. -/
def hasAIInsight (st : Store) (activityId : String) : Bool :=
  st.any (fun r => r.activityId = activityId)

/-- Model of `saveAIInsight` (sqlite.ts, `INSERT OR REPLACE`): the conflicting
row is deleted and the new row inserted with a fresh rowid. -/
def saveAIInsight (st : Store) (d : AIInsightData) : Store :=
  st.filter (fun r => ¬ (r.activityId = d.activityId)) ++ [d]

/-- Model of `getAllAIInsights` (sqlite.ts, `ORDER BY id DESC`). -/
def getAllAIInsights (st : Store) : Store :=
  st.reverse

/-- The world a single `processActivityWithInsights` call runs in: the
configuration, whether the SQLite layer throws, the generation outcome
oracle, whether a Garmin client was supplied, and whether its post
succeeds. -/
structure ProcWorld where
  cfg : Config
  storeFails : Bool
  genOutcomes : Nat → CallOutcome
  clientPresent : Bool
  postOk : Bool

/-- Observable effects of one `processActivityWithInsights` call. -/
structure ProcTrace where
  genRuns : Nat
  genApiCalls : Nat
  storeSaves : List AIInsightData
  remoteCalls : Nat
deriving DecidableEq

/-- The all-zero trace. -/
def emptyTrace : ProcTrace := ⟨0, 0, [], 0⟩

/-- The `try` block of `processActivityWithInsights` (ai_insights.ts):
initialize the table (the store failure point), skip when not forced and a
row exists, otherwise generate; on success save the row and post a comment
when a client is present. -/
def processTryBody (w : ProcWorld) (st : Store) (activity : GarminActivity)
    (allActivities : Option (List GarminActivity)) (forceUpdate : Bool) :
    Except Unit (Option AIInsightResult × Store × ProcTrace) :=
  if w.storeFails then Except.error ()
  else if ¬ forceUpdate ∧ hasAIInsight st (activityKey activity) = true then
    Except.ok (none, st, emptyTrace)
  else
    let g := generateActivityInsights w.cfg w.genOutcomes activity allActivities
    match g.2 with
    | some r =>
      let d : AIInsightData :=
        ⟨activityKey activity, activity.activityName, r.insight, r.model, r.confidence⟩
      Except.ok (some r, saveAIInsight st d,
        ⟨1, g.1.apiCalls, [d], if w.clientPresent then 1 else 0⟩)
    | none => Except.ok (none, st, ⟨1, g.1.apiCalls, [], 0⟩)

/-- Model of `processActivityWithInsights` (ai_insights.ts): short-circuit
when disabled; every exception of the body is caught and turned into a
`none` result. -/
def processActivityWithInsights (w : ProcWorld) (st : Store)
    (activity : GarminActivity) (allActivities : Option (List GarminActivity))
    (forceUpdate : Bool) : Option AIInsightResult × Store × ProcTrace :=
  if ¬ isAIInsightsEnabled w.cfg then (none, st, emptyTrace)
  else
    match processTryBody w st activity allActivities forceUpdate with
    | Except.ok r => r
    | Except.error _ => (none, st, emptyTrace)

/-- Merge of two traces from consecutive pipeline steps. -/
def addTrace (t1 t2 : ProcTrace) : ProcTrace :=
  ⟨t1.genRuns + t2.genRuns, t1.genApiCalls + t2.genApiCalls,
    t1.storeSaves ++ t2.storeSaves, t1.remoteCalls + t2.remoteCalls⟩

/-- The per-activity loop of `processActivitiesWithInsights`: skip stored
activities, process the rest (passing the whole batch as trend candidates),
count successes. -/
def processActivitiesLoop (w : ProcWorld) (all : List GarminActivity) :
    List GarminActivity → Store → Nat × Store × ProcTrace
  | [], st => (0, st, emptyTrace)
  | a :: rest, st =>
    if hasAIInsight st (activityKey a) = true then
      processActivitiesLoop w all rest st
    else
      let step := processActivityWithInsights w st a (some all) false
      let next := processActivitiesLoop w all rest step.2.1
      ((if step.1.isSome then 1 else 0) + next.1, next.2.1,
        addTrace step.2.2 next.2.2)

/-- Model of `processActivitiesWithInsights` (ai_insights.ts): return 0 when
disabled, before touching the store; the table initialization and the
in-loop store reads are not inside a `try`, so a store failure propagates. -/
def processActivitiesWithInsights (w : ProcWorld) (st : Store)
    (activities : List GarminActivity) : Except Unit (Nat × Store × ProcTrace) :=
  if ¬ isAIInsightsEnabled w.cfg then Except.ok (0, st, emptyTrace)
  else if w.storeFails then Except.error ()
  else Except.ok (processActivitiesLoop w activities activities st)

/-- `toFixed(0)` of `confidence * 100`: nearest integer, ties away from zero
for the clamped non-negative range; NaN prints as `NaN`. -/
def confPercentStr : Option Rat → String
  | none => "NaN"
  | some q => toString ((200 * q.num + (q.den : Int)) / (2 * (q.den : Int)))

/-- The comment text composed by the sync sweep:
`🤖 AI Insights (model, NN% confidence):\n` followed by the insight. -/
def formatInsightComment (d : AIInsightData) : Str :=
  ("🤖 AI Insights (" ++ d.model ++ ", " ++ confPercentStr d.confidence ++
    "% confidence):\n").toList ++ d.insight

/-- Counters and effects of one reconciliation sweep. -/
structure SyncOut where
  synced : Nat
  skipped : Nat
  errors : Nat
  attempts : List String
  posts : List (String × Str)
deriving DecidableEq

/-- The per-record loop of `syncMissingInsightsToGarmin`: skip records whose
remote description already carries the marker, otherwise attempt the
non-forced comment post and count the boolean outcome. -/
def syncLoop (env : RemoteEnv) : List AIInsightData → SyncOut
  | [] => ⟨0, 0, 0, [], []⟩
  | d :: rest =>
    let r := syncLoop env rest
    if hasActivityInsight env d.activityId = true then
      ⟨r.synced, r.skipped + 1, r.errors, r.attempts, r.posts⟩
    else
      let post := addActivityComment (env.fetch d.activityId)
        (env.postOk d.activityId) (formatInsightComment d) false
      ⟨r.synced + (if post.1 then 1 else 0), r.skipped,
        r.errors + (if post.1 then 0 else 1),
        d.activityId :: r.attempts,
        (match post.2 with
          | some p => (d.activityId, p) :: r.posts
          | none => r.posts)⟩

/-- Model of `syncMissingInsightsToGarmin` (ai_insights.ts): initialize the
table (store failure point, not guarded), read all stored insights, return
0 on an empty store, otherwise run the sweep and return the synced count
with the sweep's observable effects. Note: this function does not consult
`isAIInsightsEnabled`. -/
def syncMissingInsightsToGarmin (storeFails : Bool) (st : Store)
    (env : RemoteEnv) : Except Unit (Nat × SyncOut) :=
  if storeFails then Except.error ()
  else
    let allInsights := getAllAIInsights st
    if allInsights.isEmpty then Except.ok (0, ⟨0, 0, 0, [], []⟩)
    else
      let out := syncLoop env allInsights
      Except.ok (out.synced, out)

/-- State of the module-level rate-limit gate: the current clock and the
shared `lastRequestTime`, both in epoch milliseconds. -/
structure RLState where
  now : Nat
  lastRequestTime : Nat
deriving DecidableEq

/-- Model of `waitForRateLimit` (ai_insights.ts): if less than
`MIN_REQUEST_INTERVAL_MS` elapsed since the last request, sleep the
difference; then record the current time as the last request time. The
returned state is the moment the guarded external call is issued. -/
def waitForRateLimit (st : RLState) : RLState :=
  let timeSinceLastRequest := st.now - st.lastRequestTime
  if timeSinceLastRequest < MIN_REQUEST_INTERVAL_MS then
    let t := st.now + (MIN_REQUEST_INTERVAL_MS - timeSinceLastRequest)
    ⟨t, t⟩
  else ⟨st.now, st.now⟩

theorem mem_insertByStartDesc {a x : GarminActivity} :
    ∀ {l : List GarminActivity}, a ∈ insertByStartDesc x l ↔ a = x ∨ a ∈ l := by
  intro l
  induction l with
  | nil => simp [insertByStartDesc]
  | cons y t ih =>
    simp only [insertByStartDesc]
    split
    · simp [List.mem_cons]
    · simp only [List.mem_cons, ih]
      tauto

theorem mem_sortByStartDesc {a : GarminActivity} :
    ∀ {l : List GarminActivity}, a ∈ sortByStartDesc l ↔ a ∈ l := by
  intro l
  induction l with
  | nil => simp [sortByStartDesc]
  | cons y t ih =>
    simp only [sortByStartDesc, mem_insertByStartDesc, ih, List.mem_cons]

theorem sepL_append_head (b : Str) : (sepL ++ b).head? = some '\n' := rfl

theorem countSub_sepL_append (b : Str) :
    countSub markerL (sepL ++ b) = countSub markerL b :=
  countSub_append_headNe (b := b) sepL (by decide)

theorem jsMax_zero_nonneg (x : Rat) : 0 ≤ jsMax 0 x := by
  unfold jsMax
  split
  · assumption
  · exact le_refl 0

theorem jsMin_one_le (y : Rat) : jsMin 1 y ≤ 1 := by
  unfold jsMin
  split
  · exact le_refl 1
  · next h => exact le_of_not_le h

theorem jsMin_one_nonneg {y : Rat} (h : 0 ≤ y) : 0 ≤ jsMin 1 y := by
  unfold jsMin
  split
  · norm_num
  · exact h

theorem hasAIInsight_save (st : Store) (d : AIInsightData) :
    hasAIInsight (saveAIInsight st d) d.activityId = true := by
  simp [hasAIInsight, saveAIInsight, List.any_append]

theorem matchConfAt_none_of_not_bracket {s : Str} {p : Nat}
    (h : s[p]? ≠ some '[') : matchConfAt s p = none := by
  have hh : ¬ ((s.drop p).head? = some '[' ∧
      (((s.drop p).drop 1).take 11).map lowc = confLit) := by
    rintro ⟨h1, -⟩
    apply h
    rwa [List.head?_eq_getElem?, List.getElem?_drop, Nat.add_zero] at h1
  simp only [matchConfAt]
  rw [if_neg hh]

theorem matchConfAt_append (a b : Str) (q : Nat) :
    matchConfAt (a ++ b) (a.length + q) =
      (matchConfAt b q).map (fun x => (a.length + x.1, x.2)) := by
  simp only [matchConfAt, List.drop_append]
  split
  · split
    · simp only [Option.map_some']
      exact congrArg some (Prod.ext (by omega) rfl)
    · rfl
  · rfl

theorem findConf_body_tag {body : Str} (h : '[' ∉ body) :
    findConf (body ++ "[CONFIDENCE: 0.85]".toList) =
      some (body.length, body.length + 18, "0.85".toList) := by
  apply scanO_eq_some
  · intro p _ hp
    apply matchConfAt_none_of_not_bracket
    rw [List.getElem?_append_left hp]
    intro hc
    exact h (List.getElem?_mem hc)
  · have h2 := matchConfAt_append body ("[CONFIDENCE: 0.85]".toList) 0
    rw [Nat.add_zero] at h2
    rw [h2, show matchConfAt ("[CONFIDENCE: 0.85]".toList) 0 =
      some (18, "0.85".toList) from by decide]
    rfl
  · omega
  · rw [List.length_append,
      show ("[CONFIDENCE: 0.85]".toList).length = 18 from by decide]
    omega

/-- C8 (counterexample): the capture class `[0-9.]+` admits captures with no
parseable leading number, both all-dots (`.`) and digit-containing (`..5`);
`parseFloat` gives NaN (modelled `none`), and
`Math.min(1, Math.max(0, NaN))` stays NaN, so on
`"run [CONFIDENCE: .]"` (and likewise `"run [CONFIDENCE: ..5]"`) the
returned confidence is not a real number in [0, 1] — the tag is
nevertheless matched and stripped. -/
theorem parseConfidence_clamp_counterexample :
    parseConfidence ("run [CONFIDENCE: .]".toList) = ("run".toList, none) ∧
    parseConfidence ("run [CONFIDENCE: ..5]".toList) = ("run".toList, none) ∧
    ¬ ∃ q : Rat, (parseConfidence ("run [CONFIDENCE: .]".toList)).2 = some q ∧
      0 ≤ q ∧ q ≤ 1 := by
  refine ⟨by decide, by decide, ?_⟩
  rintro ⟨q, hq, -⟩
  rw [show (parseConfidence ("run [CONFIDENCE: .]".toList)).2 = none from by decide] at hq
  cases hq

/-- C8 (amended): on text that is a body free of `'['` followed by the tag
`[CONFIDENCE: 0.85]`, `parseConfidence` returns exactly 0.85 with the tag
stripped (and the result trimmed); on text with no match of the tag pattern
it returns the text unchanged with default confidence 0.7; and in every
case the returned confidence is either NaN or a real number clamped to
[0, 1] — every non-NaN confidence lies in [0, 1], and NaN does occur, also
for digit-containing captures such as `..5` (last conjunct), whose leading
part `parseFloat` cannot read as a number; the tag is removed in that case
too. -/
theorem parseConfidence_spec_amended :
    (∀ body : Str, '[' ∉ body →
      parseConfidence (body ++ "[CONFIDENCE: 0.85]".toList) =
        (trimStr body, some (mkRat 17 20))) ∧
    (∀ s : Str, findConf s = none → parseConfidence s = (s, some (mkRat 7 10))) ∧
    (∀ (s : Str) (q : Rat), (parseConfidence s).2 = some q → 0 ≤ q ∧ q ≤ 1) ∧
    (∀ s : Str, (parseConfidence s).2 = none ∨
      ∃ q : Rat, (parseConfidence s).2 = some q ∧ 0 ≤ q ∧ q ≤ 1) ∧
    parseConfidence ("x [CONFIDENCE: ..5]".toList) = ("x".toList, none) := by
  have hclamp : ∀ (s : Str) (q : Rat), (parseConfidence s).2 = some q → 0 ≤ q ∧ q ≤ 1 := by
    intro s q hq
    cases hfc : findConf s with
    | none =>
      rw [parseConfidence.eq_def, hfc] at hq
      simp only at hq
      injection hq with hq
      subst hq
      constructor <;> decide
    | some t =>
      obtain ⟨start, stop, num⟩ := t
      rw [parseConfidence.eq_def, hfc] at hq
      simp only at hq
      obtain ⟨x, -, hx⟩ := Option.map_eq_some'.mp hq
      subst hx
      exact ⟨jsMin_one_nonneg (jsMax_zero_nonneg x), jsMin_one_le _⟩
  refine ⟨?_, ?_, hclamp, ?_, by decide⟩
  · intro body hb
    rw [parseConfidence.eq_def, findConf_body_tag hb]
    simp only []
    have hlen : ("[CONFIDENCE: 0.85]".toList).length = 18 := by decide
    have htake : (body ++ "[CONFIDENCE: 0.85]".toList).take body.length = body :=
      List.take_left ..
    have hdrop : (body ++ "[CONFIDENCE: 0.85]".toList).drop (body.length + 18) = [] :=
      List.drop_eq_nil_of_le (by rw [List.length_append, hlen])
    rw [htake, hdrop, List.append_nil]
    rw [show (parseFloatM ("0.85".toList)).map (fun q => jsMin 1 (jsMax 0 q)) =
      some (mkRat 17 20) from by decide]
  · intro s hn
    rw [parseConfidence.eq_def, hn]
  · intro s
    cases hc : (parseConfidence s).2 with
    | none => exact Or.inl rfl
    | some q => exact Or.inr ⟨q, rfl, hclamp s q hc⟩

/-- Witness for `parseConfidence_spec_amended` at concrete inputs. -/
theorem parseConfidence_spec_amended_witness :
    parseConfidence ("Great run!".toList ++ "[CONFIDENCE: 0.85]".toList) =
      (trimStr ("Great run!".toList), some (mkRat 17 20)) ∧
    parseConfidence ("plain text".toList) = ("plain text".toList, some (mkRat 7 10)) ∧
    (0 ≤ mkRat 7 10 ∧ mkRat 7 10 ≤ 1) ∧
    ((parseConfidence ("plain text".toList)).2 = none ∨
      ∃ q : Rat, (parseConfidence ("plain text".toList)).2 = some q ∧ 0 ≤ q ∧ q ≤ 1) := by
  refine ⟨?_, ?_, ?_, ?_⟩
  · exact parseConfidence_spec_amended.1 ("Great run!".toList) (by decide)
  · exact parseConfidence_spec_amended.2.1 ("plain text".toList) (by decide)
  · exact parseConfidence_spec_amended.2.2.1 ("plain text".toList) (mkRat 7 10) (by decide)
  · exact parseConfidence_spec_amended.2.2.2.1 ("plain text".toList)

/-- C5: with `force = false`, when the fetched description already carries a
recognizable insight marker the call returns success and issues no write;
otherwise the posted description is the old description followed by the
comment, with the divider inserted exactly when the old description is
non-empty. -/
theorem addActivityComment_nonforce_spec :
    ∀ (act : RemoteActivity) (postOk : Bool) (comment : Str),
      (hasInsightMarker (act.description.getD []) = true →
        addActivityComment (some (some act)) postOk comment false = (true, none)) ∧
      (hasInsightMarker (act.description.getD []) = false →
        addActivityComment (some (some act)) postOk comment false =
          (postOk, some ((act.description.getD []) ++
            (if act.description.getD [] ≠ [] then sepL else []) ++ comment))) := by
  intro act postOk comment
  constructor
  · intro h
    simp [addActivityComment, h]
  · intro h
    simp [addActivityComment, h]

/-- Witness for `addActivityComment_nonforce_spec`: a description already
holding an insight is left alone; a fresh non-empty description gets the
divider and the comment appended. -/
theorem addActivityComment_nonforce_spec_witness :
    addActivityComment (some (some ⟨"run", some ("🤖 AI Insights (m, 90% confidence):\nok".toList)⟩))
      true ("🤖 AI Insights new".toList) false = (true, none) ∧
    addActivityComment (some (some ⟨"run", some ("hello".toList)⟩))
      true ("🤖 AI Insights new".toList) false =
      (true, some (("hello".toList) ++
        (if ("hello".toList : Str) ≠ [] then sepL else []) ++ ("🤖 AI Insights new".toList))) := by
  constructor
  · exact (addActivityComment_nonforce_spec _ true _).1 (by decide)
  · exact (addActivityComment_nonforce_spec _ true _).2 (by decide)

/-- C6: with `force = true` on a description that already contains a
previously-inserted insight block (the `🤖 AI Insights` marker), the posted
description contains exactly one insight block: all old blocks are removed
before the single-block comment is appended. -/
theorem addActivityComment_force_single_block :
    ∀ (act : RemoteActivity) (postOk : Bool) (comment : Str),
      containsSub (act.description.getD []) markerL = true →
      countSub markerL comment = 1 →
      ∃ d, (addActivityComment (some (some act)) postOk comment true).2 = some d ∧
        countSub markerL d = 1 := by
  intro act postOk comment hmark hcount
  have hexist : hasInsightMarker (act.description.getD []) = true := by
    simp [hasInsightMarker, hmark]
  refine ⟨trimStr (stripBlocks (act.description.getD [])) ++
    (if trimStr (stripBlocks (act.description.getD [])) ≠ [] then sepL else []) ++
      comment, ?_, ?_⟩
  · simp [addActivityComment, hexist]
  · have ht0 : countSub markerL (trimStr (stripBlocks (act.description.getD []))) = 0 :=
      countSub_eq_zero (by decide) (stripBlocks_trim_noOcc _)
    by_cases hte : trimStr (stripBlocks (act.description.getD [])) = []
    · rw [hte]
      simpa using hcount
    · rw [if_pos hte, List.append_assoc,
        countSub_append_nl (by decide) (by decide) (Or.inr (sepL_append_head comment)),
        ht0, countSub_sepL_append, hcount]

/-- Witness for `addActivityComment_force_single_block` at a concrete forced
regeneration over a description that already holds an insight block. -/
theorem addActivityComment_force_single_block_witness :
    ∃ d, (addActivityComment
      (some (some ⟨"run", some ("hello\n\n---\n\n🤖 AI Insights (m): old".toList)⟩))
      true ("🤖 AI Insights (m, 90% confidence):\nnew".toList) true).2 = some d ∧
      countSub markerL d = 1 :=
  addActivityComment_force_single_block _ true _ (by decide) (by decide)

/-- C7: every activity placed in the historical context comes from the
candidate list, has the same type tag as the current activity, and has a
stringified identifier different from the current activity's — the current
activity itself is never included. -/
theorem getHistoricalContext_excludes_current :
    ∀ (cur : GarminActivity) (cands : List GarminActivity),
      (∀ y, (getHistoricalContext cur cands).yesterdayActivity = some y →
        y ∈ cands ∧ y.typeKey = cur.typeKey ∧ idStr y.activityId ≠ idStr cur.activityId) ∧
      (∀ w, (getHistoricalContext cur cands).lastWeekActivity = some w →
        w ∈ cands ∧ w.typeKey = cur.typeKey ∧ idStr w.activityId ≠ idStr cur.activityId) ∧
      (∀ a, a ∈ (getHistoricalContext cur cands).recentActivities →
        a ∈ cands ∧ a.typeKey = cur.typeKey ∧ idStr a.activityId ≠ idStr cur.activityId) := by
  intro cur cands
  have hfilter : ∀ a, a ∈ cands.filter (fun a =>
      decide (a.typeKey = cur.typeKey) &&
        decide (¬ (idStr a.activityId = idStr cur.activityId))) →
      a ∈ cands ∧ a.typeKey = cur.typeKey ∧ idStr a.activityId ≠ idStr cur.activityId := by
    intro a ha
    obtain ⟨hmem, hp⟩ := List.mem_filter.mp ha
    rw [Bool.and_eq_true, decide_eq_true_eq, decide_eq_true_eq] at hp
    exact ⟨hmem, hp.1, hp.2⟩
  refine ⟨?_, ?_, ?_⟩
  · intro y hy
    simp only [getHistoricalContext] at hy
    exact hfilter y (List.mem_of_find?_eq_some hy)
  · intro w hw
    simp only [getHistoricalContext] at hw
    exact hfilter w (List.mem_of_find?_eq_some hw)
  · intro a ha
    simp only [getHistoricalContext] at ha
    have h1 := List.take_subset _ _ ha
    rw [mem_sortByStartDesc] at h1
    obtain ⟨h2, -⟩ := List.mem_filter.mp h1
    exact hfilter a h2

/-- A concrete activity with only the identifying fields populated. -/
def mkAct (id : Sum Nat String) (name : String) (ty : Option String)
    (t : Int) : GarminActivity :=
  { activityId := id, activityName := name, typeKey := ty, startTimeLocal := t }

/-- Witness for `getHistoricalContext_excludes_current`: a concrete
candidate list in which a yesterday activity is found, and the found
activity satisfies the exclusion properties. -/
theorem getHistoricalContext_excludes_current_witness :
    (getHistoricalContext
        (mkAct (Sum.inl 1) "today" (some "running") (10 * dayMs))
        [mkAct (Sum.inl 2) "yesterday" (some "running") (9 * dayMs),
         mkAct (Sum.inl 3) "lastweek" (some "running") (3 * dayMs)]).yesterdayActivity =
      some (mkAct (Sum.inl 2) "yesterday" (some "running") (9 * dayMs)) ∧
    (mkAct (Sum.inl 2) "yesterday" (some "running") (9 * dayMs) ∈
        [mkAct (Sum.inl 2) "yesterday" (some "running") (9 * dayMs),
         mkAct (Sum.inl 3) "lastweek" (some "running") (3 * dayMs)] ∧
      (mkAct (Sum.inl 2) "yesterday" (some "running") (9 * dayMs)).typeKey =
        (mkAct (Sum.inl 1) "today" (some "running") (10 * dayMs)).typeKey ∧
      idStr (mkAct (Sum.inl 2) "yesterday" (some "running") (9 * dayMs)).activityId ≠
        idStr (mkAct (Sum.inl 1) "today" (some "running") (10 * dayMs)).activityId) := by
  refine ⟨by decide, ?_⟩
  exact (getHistoricalContext_excludes_current
    (mkAct (Sum.inl 1) "today" (some "running") (10 * dayMs))
    [mkAct (Sum.inl 2) "yesterday" (some "running") (9 * dayMs),
     mkAct (Sum.inl 3) "lastweek" (some "running") (3 * dayMs)]).1 _ (by decide)

/-- C9: the gate records the moment of each guarded call in the shared
timestamp, and two consecutive gated calls are separated by at least
`MIN_REQUEST_INTERVAL_MS` (1000 ms), whatever time `e` elapses in between. -/
theorem waitForRateLimit_spacing :
    ∀ (st : RLState) (e : Nat),
      (waitForRateLimit st).lastRequestTime = (waitForRateLimit st).now ∧
      (waitForRateLimit st).now + MIN_REQUEST_INTERVAL_MS ≤
        (waitForRateLimit
          ⟨(waitForRateLimit st).now + e, (waitForRateLimit st).lastRequestTime⟩).now := by
  intro st e
  simp only [waitForRateLimit, MIN_REQUEST_INTERVAL_MS]
  split
  · simp only []
    split <;> simp <;> omega
  · simp only []
    split <;> simp <;> omega

theorem syncLoop_attempts (env : RemoteEnv) (d : AIInsightData) :
    ∀ st : List AIInsightData, d ∈ st →
      hasActivityInsight env d.activityId = false →
      d.activityId ∈ (syncLoop env st).attempts := by
  intro st
  induction st with
  | nil => intro h; cases h
  | cons x rest ih =>
    intro hd hnot
    rcases List.mem_cons.mp hd with rfl | hmem
    · simp only [syncLoop]
      rw [if_neg (by simp [hnot])]
      simp
    · simp only [syncLoop]
      by_cases hx : hasActivityInsight env x.activityId = true
      · rw [if_pos hx]
        exact ih hmem hnot
      · rw [if_neg hx]
        simp only [List.mem_cons]
        exact Or.inr (ih hmem hnot)

/-- C10: `hasActivityInsight` never raises and reports `false` both when the
remote fetch fails (or yields a falsy activity) and when the activity has
no description; consequently the reconciliation sweep treats such a record
as missing its insight and proceeds to attempt a post for it. -/
theorem hasActivityInsight_false_on_failure :
    ∀ (env : RemoteEnv) (activityId : String) (st : List AIInsightData),
      (env.fetch activityId = none → hasActivityInsight env activityId = false) ∧
      (env.fetch activityId = some none → hasActivityInsight env activityId = false) ∧
      (∀ a, env.fetch activityId = some (some a) → a.description = none →
        hasActivityInsight env activityId = false) ∧
      (∀ d, d ∈ st → d.activityId = activityId → env.fetch activityId = none →
        d.activityId ∈ (syncLoop env st).attempts) := by
  intro env activityId st
  refine ⟨?_, ?_, ?_, ?_⟩
  · intro h
    simp [hasActivityInsight, h]
  · intro h
    simp [hasActivityInsight, h]
    decide
  · intro a hf hd
    simp [hasActivityInsight, hf, hd]
    decide
  · intro d hd hid hf
    refine syncLoop_attempts env d st hd ?_
    rw [hid]
    simp [hasActivityInsight, hf]

/-- Witness for `hasActivityInsight_false_on_failure`: a remote that throws
on fetch; the single stored record is still attempted by the sweep. -/
theorem hasActivityInsight_false_on_failure_witness :
    hasActivityInsight ⟨fun _ => none, fun _ => true⟩ "42" = false ∧
    "42" ∈ (syncLoop ⟨fun _ => none, fun _ => true⟩
      [⟨"42", "Run", "Nice".toList, "gemini-2.5-flash-lite", some (mkRat 9 10)⟩]).attempts := by
  constructor
  · exact (hasActivityInsight_false_on_failure ⟨fun _ => none, fun _ => true⟩ "42" []).1 rfl
  · exact (hasActivityInsight_false_on_failure ⟨fun _ => none, fun _ => true⟩ "42"
      [⟨"42", "Run", "Nice".toList, "gemini-2.5-flash-lite", some (mkRat 9 10)⟩]).2.2.2
      ⟨"42", "Run", "Nice".toList, "gemini-2.5-flash-lite", some (mkRat 9 10)⟩
      (by simp) rfl rfl

theorem processActivity_skip (w : ProcWorld) (st : Store) (act : GarminActivity)
    (allActs : Option (List GarminActivity))
    (h : hasAIInsight st (activityKey act) = true) :
    processActivityWithInsights w st act allActs false = (none, st, emptyTrace) := by
  by_cases he : isAIInsightsEnabled w.cfg = true
  · by_cases hsf : w.storeFails = true
    · simp [processActivityWithInsights, processTryBody, he, hsf]
    · simp [processActivityWithInsights, processTryBody, he, hsf, h]
  · rw [Bool.not_eq_true] at he
    simp [processActivityWithInsights, he]

theorem processActivity_generates (w : ProcWorld) (st : Store)
    (act : GarminActivity) (allActs : Option (List GarminActivity))
    (r : AIInsightResult)
    (hno : hasAIInsight st (activityKey act) = false)
    (hsf : w.storeFails = false)
    (he : isAIInsightsEnabled w.cfg = true)
    (hg : (generateActivityInsights w.cfg w.genOutcomes act allActs).2 = some r) :
    processActivityWithInsights w st act allActs false =
      (some r,
        saveAIInsight st ⟨activityKey act, act.activityName, r.insight, r.model, r.confidence⟩,
        ⟨1, (generateActivityInsights w.cfg w.genOutcomes act allActs).1.apiCalls,
          [⟨activityKey act, act.activityName, r.insight, r.model, r.confidence⟩],
          if w.clientPresent then 1 else 0⟩) := by
  simp [processActivityWithInsights, processTryBody, he, hsf, hno, hg]

/-- C2: if `force` is false and the store already holds a record for the
activity, the call skips (`none`) with no generation run, no store write
and no remote call; consequently, after a first successful generate-and-post
the second identical call is a no-op skip — generation ran exactly once. -/
theorem processActivityWithInsights_idempotent :
    ∀ (w : ProcWorld) (st : Store) (act : GarminActivity)
      (allActs : Option (List GarminActivity)),
      (hasAIInsight st (activityKey act) = true →
        processActivityWithInsights w st act allActs false = (none, st, emptyTrace)) ∧
      (∀ r : AIInsightResult,
        hasAIInsight st (activityKey act) = false →
        w.storeFails = false →
        isAIInsightsEnabled w.cfg = true →
        (generateActivityInsights w.cfg w.genOutcomes act allActs).2 = some r →
        (processActivityWithInsights w st act allActs false).1 = some r ∧
        (processActivityWithInsights w st act allActs false).2.2.genRuns = 1 ∧
        processActivityWithInsights w
            ((processActivityWithInsights w st act allActs false).2.1) act allActs false =
          (none, (processActivityWithInsights w st act allActs false).2.1, emptyTrace)) := by
  intro w st act allActs
  constructor
  · exact processActivity_skip w st act allActs
  · intro r hno hsf he hg
    rw [processActivity_generates w st act allActs r hno hsf he hg]
    refine ⟨rfl, rfl, ?_⟩
    exact processActivity_skip w _ act allActs
      (hasAIInsight_save st ⟨activityKey act, act.activityName, r.insight, r.model, r.confidence⟩)

/-- The world of a failing SQLite layer with the feature enabled. -/
def wStoreFail : ProcWorld :=
  ⟨⟨true, "key"⟩, true, fun _ => CallOutcome.success [], false, true⟩

/-- C3 (counterexample): with a failing store, the body of
`processActivityWithInsights` raises, but the call itself catches the
exception and returns a plain `null` result — the failure does not
propagate past the call. -/
theorem processActivity_storeFailure_counterexample :
    processTryBody wStoreFail [] (mkAct (Sum.inl 7) "run" (some "running") 0)
        none false = Except.error () ∧
    processActivityWithInsights wStoreFail []
        (mkAct (Sum.inl 7) "run" (some "running") 0) none false =
      (none, [], emptyTrace) :=
  ⟨rfl, rfl⟩

/-- C3 (amended): a store failure inside a single-item
`processActivityWithInsights` call is caught inside the call and converted
into a `none` result with no observable effect; only the inner body
raises. -/
theorem processActivity_storeFailure_caught :
    ∀ (w : ProcWorld) (st : Store) (act : GarminActivity)
      (allActs : Option (List GarminActivity)) (force : Bool),
      w.storeFails = true →
      isAIInsightsEnabled w.cfg = true →
      processTryBody w st act allActs force = Except.error () ∧
      processActivityWithInsights w st act allActs force = (none, st, emptyTrace) := by
  intro w st act allActs force hsf he
  constructor
  · simp [processTryBody, hsf]
  · simp [processActivityWithInsights, processTryBody, he, hsf]

/-- Witness for `processActivity_storeFailure_caught`. -/
theorem processActivity_storeFailure_caught_witness :
    processTryBody wStoreFail [] (mkAct (Sum.inl 9) "x" none 0) none true =
      Except.error () ∧
    processActivityWithInsights wStoreFail [] (mkAct (Sum.inl 9) "x" none 0)
        none true = (none, [], emptyTrace) :=
  processActivity_storeFailure_caught wStoreFail [] (mkAct (Sum.inl 9) "x" none 0)
    none true rfl rfl

/-- A world with the feature enabled, a healthy store and a generation
oracle that succeeds at once. -/
def wGen : ProcWorld :=
  ⟨⟨true, "key"⟩, false,
    fun _ => CallOutcome.success ("ok [CONFIDENCE: 0.9]".toList), false, true⟩

/-- A concrete activity for witnesses. -/
def actW : GarminActivity := mkAct (Sum.inl 5) "morning run" (some "running") 0

/-- Witness for `processActivityWithInsights_idempotent`: on an empty store
the first call generates once; the second call on the resulting store is an
inert skip. -/
theorem processActivityWithInsights_idempotent_witness :
    (processActivityWithInsights wGen [] actW none false).1 =
      some ⟨"ok".toList, GEMINI_MODEL, some (mkRat 9 10)⟩ ∧
    (processActivityWithInsights wGen [] actW none false).2.2.genRuns = 1 ∧
    processActivityWithInsights wGen
        ((processActivityWithInsights wGen [] actW none false).2.1) actW none false =
      (none, (processActivityWithInsights wGen [] actW none false).2.1, emptyTrace) :=
  (processActivityWithInsights_idempotent wGen [] actW none).2
    ⟨"ok".toList, GEMINI_MODEL, some (mkRat 9 10)⟩ rfl rfl rfl (by decide)

/-- The configuration with the enable flag off. -/
def cfgDisabled : Config := ⟨false, "key"⟩

/-- A remote on which every activity fetch succeeds with an empty
description and every post succeeds. -/
def envPostable : RemoteEnv :=
  ⟨fun _ => some (some ⟨"Run", some []⟩), fun _ => true⟩

/-- A store holding one insight record. -/
def storeOne : Store :=
  [⟨"42", "Run", "Nice run".toList, "gemini-2.5-flash-lite", some (mkRat 9 10)⟩]

/-- C1 (counterexample): `syncMissingInsightsToGarmin` does not consult the
enable flag: with the feature disabled it still sweeps the store, issues a
remote write and returns 1, not an inert 0. -/
theorem syncMissing_ignores_disabled_counterexample :
    isAIInsightsEnabled cfgDisabled = false ∧
    ∃ out : SyncOut,
      syncMissingInsightsToGarmin false storeOne envPostable = Except.ok (1, out) ∧
      out.posts ≠ [] := by
  refine ⟨rfl, ?_⟩
  refine ⟨_, rfl, ?_⟩
  decide

/-- C1 (amended): when the feature is disabled (flag false or credential
empty), `processActivityWithInsights`, `generateActivityInsights` and
`processActivitiesWithInsights` each return an inert `none`/0 with no
generation call, no store write and no remote write, and without raising;
`syncMissingInsightsToGarmin` does not consult the flag and is exempt. -/
theorem disabled_entry_points_inert :
    ∀ (w : ProcWorld) (st : Store) (act : GarminActivity)
      (allActs : Option (List GarminActivity)) (acts : List GarminActivity)
      (force : Bool),
      isAIInsightsEnabled w.cfg = false →
      processActivityWithInsights w st act allActs force = (none, st, emptyTrace) ∧
      generateActivityInsights w.cfg w.genOutcomes act allActs = (⟨0, []⟩, none) ∧
      processActivitiesWithInsights w st acts = Except.ok (0, st, emptyTrace) := by
  intro w st act allActs acts force he
  refine ⟨?_, ?_, ?_⟩ <;>
    simp [processActivityWithInsights, generateActivityInsights,
      processActivitiesWithInsights, he]

/-- Witness for `disabled_entry_points_inert` at a disabled configuration. -/
theorem disabled_entry_points_inert_witness :
    processActivityWithInsights ⟨cfgDisabled, false, wGen.genOutcomes, false, true⟩
        [] actW none false = (none, [], emptyTrace) ∧
    generateActivityInsights cfgDisabled wGen.genOutcomes actW none = (⟨0, []⟩, none) ∧
    processActivitiesWithInsights ⟨cfgDisabled, false, wGen.genOutcomes, false, true⟩
        [] [actW] = Except.ok (0, [], emptyTrace) :=
  disabled_entry_points_inert ⟨cfgDisabled, false, wGen.genOutcomes, false, true⟩
    [] actW none [actW] false rfl

theorem genAttempts_calls_le (oc : Nat → CallOutcome) :
    ∀ rem attempt, (genAttempts oc attempt rem).1.apiCalls ≤ rem := by
  intro rem
  induction rem with
  | zero => intro attempt; simp [genAttempts]
  | succ n ih =>
    intro attempt
    cases hoc : oc attempt with
    | success t => simp [genAttempts, hoc]
    | failure st stx ed =>
      simp only [genAttempts, hoc]
      split
      · dsimp only
        have := ih (attempt + 1)
        omega
      · dsimp only
        omega

theorem genAttempts_calls_pos (oc : Nat → CallOutcome) (n attempt : Nat) :
    1 ≤ (genAttempts oc attempt (n + 1)).1.apiCalls := by
  cases hoc : oc attempt with
  | success t => simp [genAttempts, hoc]
  | failure st stx ed =>
    simp only [genAttempts, hoc]
    split
    · dsimp only
      omega
    · dsimp only
      omega

theorem genAttempts_sleeps_len (oc : Nat → CallOutcome) :
    ∀ rem attempt, attempt + rem = MAX_RETRIES + 1 → 1 ≤ rem →
      (genAttempts oc attempt rem).1.retrySleeps.length + 1 =
        (genAttempts oc attempt rem).1.apiCalls := by
  intro rem
  induction rem with
  | zero => intro attempt _ h; omega
  | succ n ih =>
    intro attempt hinv _
    cases hoc : oc attempt with
    | success t => simp [genAttempts, hoc]
    | failure st stx ed =>
      simp only [genAttempts, hoc]
      split
      · next hcond =>
        have hlt : attempt < MAX_RETRIES :=
          of_decide_eq_true ((Bool.and_eq_true ..).mp hcond).2
        have hn : 1 ≤ n := by
          unfold MAX_RETRIES at hinv hlt
          omega
        have := ih (attempt + 1) (by omega) hn
        dsimp only
        rw [List.length_cons]
        omega
      · dsimp only
        rfl

theorem genAttempts_retry_rl (oc : Nat → CallOutcome) :
    ∀ rem attempt j, j + 1 < (genAttempts oc attempt rem).1.apiCalls →
      isRateLimited (oc (attempt + j)) = true ∧ attempt + j < MAX_RETRIES := by
  intro rem
  induction rem with
  | zero =>
    intro attempt j h
    simp [genAttempts] at h
  | succ n ih =>
    intro attempt j h
    cases hoc : oc attempt with
    | success t =>
      rw [show genAttempts oc attempt (n + 1) =
        (⟨1, []⟩, some ⟨(parseConfidence (trimStr t)).1, GEMINI_MODEL,
          (parseConfidence (trimStr t)).2⟩) from by simp [genAttempts, hoc]] at h
      simp at h
    | failure st stx ed =>
      simp only [genAttempts, hoc] at h
      split at h
      · next hcond =>
        obtain ⟨hrl, hlt⟩ := (Bool.and_eq_true ..).mp hcond
        dsimp only at h
        cases j with
        | zero =>
          refine ⟨?_, ?_⟩
          · rw [Nat.add_zero, hoc]
            simp only [isRateLimited]
            exact hrl
          · rw [Nat.add_zero]
            exact of_decide_eq_true hlt
        | succ k =>
          have hk := ih (attempt + 1) k (by omega)
          constructor
          · rw [show attempt + (k + 1) = attempt + 1 + k from by omega]
            exact hk.1
          · have h2 := hk.2
            omega
      · dsimp only at h
        omega

theorem genAttempts_sleep_values (oc : Nat → CallOutcome) :
    ∀ rem attempt j (h : j < (genAttempts oc attempt rem).1.retrySleeps.length),
      (genAttempts oc attempt rem).1.retrySleeps.get ⟨j, h⟩ =
        (hintMs (detailsOf (oc (attempt + j)))).getD
          (BASE_DELAY_MS * 2 ^ (attempt + j - 1)) := by
  intro rem
  induction rem with
  | zero =>
    intro attempt j h
    simp [genAttempts] at h
  | succ n ih =>
    intro attempt j h
    have hsl : (genAttempts oc attempt (n + 1)).1.retrySleeps =
        (genAttempts oc attempt (n + 1)).1.retrySleeps := rfl
    cases hoc : oc attempt with
    | success t =>
      exfalso
      rw [show genAttempts oc attempt (n + 1) =
        (⟨1, []⟩, some ⟨(parseConfidence (trimStr t)).1, GEMINI_MODEL,
          (parseConfidence (trimStr t)).2⟩) from by simp [genAttempts, hoc]] at h
      simp at h
    | failure st stx ed =>
      rcases hsplit : (decide (st = some 429) || decide (stx = some "Too Many Requests")) &&
          decide (attempt < MAX_RETRIES) with _ | _
      · exfalso
        rw [show genAttempts oc attempt (n + 1) = (⟨1, []⟩, none) from by
          simp only [genAttempts, hoc]
          rw [if_neg (by simp [hsplit])]] at h
        simp at h
      · have hred : genAttempts oc attempt (n + 1) =
            (⟨(genAttempts oc (attempt + 1) n).1.apiCalls + 1,
              ((hintMs ed).getD (BASE_DELAY_MS * 2 ^ (attempt - 1))) ::
                (genAttempts oc (attempt + 1) n).1.retrySleeps⟩,
              (genAttempts oc (attempt + 1) n).2) := by
          simp only [genAttempts, hoc]
          rw [if_pos (by simp [hsplit])]
        revert h
        rw [hred]
        intro h
        cases j with
        | zero =>
          simp only [List.get]
          rw [Nat.add_zero, hoc]
          rfl
        | succ k =>
          have hk : k < (genAttempts oc (attempt + 1) n).1.retrySleeps.length := by
            have := h
            simp only [List.length_cons] at this
            omega
          simp only [List.get]
          rw [ih (attempt + 1) k hk]
          rw [show attempt + (k + 1) = attempt + 1 + k from by omega]

theorem genAttempts_success_iff (oc : Nat → CallOutcome) :
    ∀ rem attempt, 1 ≤ rem →
      ((genAttempts oc attempt rem).2.isSome = true ↔
        ∃ t, oc (attempt + ((genAttempts oc attempt rem).1.apiCalls - 1)) =
          CallOutcome.success t) := by
  intro rem
  induction rem with
  | zero => intro attempt h; omega
  | succ n ih =>
    intro attempt _
    cases hoc : oc attempt with
    | success t =>
      rw [show genAttempts oc attempt (n + 1) =
        (⟨1, []⟩, some ⟨(parseConfidence (trimStr t)).1, GEMINI_MODEL,
          (parseConfidence (trimStr t)).2⟩) from by simp [genAttempts, hoc]]
      simp only [Option.isSome_some]
      constructor
      · intro _
        exact ⟨t, by simpa using hoc⟩
      · intro _
        trivial
    | failure st stx ed =>
      rcases hsplit : (decide (st = some 429) || decide (stx = some "Too Many Requests")) &&
          decide (attempt < MAX_RETRIES) with _ | _
      · rw [show genAttempts oc attempt (n + 1) = (⟨1, []⟩, none) from by
          simp only [genAttempts, hoc]
          rw [if_neg (by simp [hsplit])]]
        simp only [Option.isSome_none]
        constructor
        · intro h; cases h
        · rintro ⟨t, ht⟩
          rw [show attempt + (1 - 1) = attempt from by omega, hoc] at ht
          cases ht
      · have hred : genAttempts oc attempt (n + 1) =
            (⟨(genAttempts oc (attempt + 1) n).1.apiCalls + 1,
              ((hintMs ed).getD (BASE_DELAY_MS * 2 ^ (attempt - 1))) ::
                (genAttempts oc (attempt + 1) n).1.retrySleeps⟩,
              (genAttempts oc (attempt + 1) n).2) := by
          simp only [genAttempts, hoc]
          rw [if_pos (by simp [hsplit])]
        rw [hred]
        rcases Nat.eq_zero_or_pos n with rfl | hn
        · rw [show genAttempts oc (attempt + 1) 0 = (⟨0, []⟩, none) from rfl]
          simp only [Option.isSome_none]
          constructor
          · intro h; cases h
          · rintro ⟨t, ht⟩
            rw [show attempt + (0 + 1 - 1) = attempt from by omega, hoc] at ht
            cases ht
        · have hiff := ih (attempt + 1) hn
          have hpos : 1 ≤ (genAttempts oc (attempt + 1) n).1.apiCalls := by
            obtain ⟨m, rfl⟩ := Nat.exists_eq_succ_of_ne_zero (Nat.pos_iff_ne_zero.mp hn)
            exact genAttempts_calls_pos oc m (attempt + 1)
          rw [hiff]
          constructor
          · rintro ⟨t, ht⟩
            exact ⟨t, by rwa [show attempt + ((genAttempts oc (attempt + 1) n).1.apiCalls + 1 - 1) =
              attempt + 1 + ((genAttempts oc (attempt + 1) n).1.apiCalls - 1) from by omega]⟩
          · rintro ⟨t, ht⟩
            exact ⟨t, by rwa [show attempt + 1 + ((genAttempts oc (attempt + 1) n).1.apiCalls - 1) =
              attempt + ((genAttempts oc (attempt + 1) n).1.apiCalls + 1 - 1) from by omega]⟩

theorem genAttempts_nonRL_stops (oc : Nat → CallOutcome) (rem attempt : Nat)
    {st : Option Nat} {stx : Option String} {ed : Option (List ErrorDetail)}
    (hoc : oc attempt = CallOutcome.failure st stx ed)
    (hrl : isRateLimited (oc attempt) = false) :
    genAttempts oc attempt (rem + 1) = (⟨1, []⟩, none) := by
  rw [hoc] at hrl
  simp only [isRateLimited] at hrl
  simp only [genAttempts, hoc]
  rw [if_neg (by simp [hrl])]

/-- C4: the generation client makes between 1 and `MAX_RETRIES` (3) calls;
every attempt that was followed by another was a rate-limited failure made
with `attempt < MAX_RETRIES`; there is exactly one sleep per retry, and the
`j`-th sleep is the provider-suggested delay when parseable from the error
details, otherwise `BASE_DELAY_MS * 2 ^ j` (2 s doubling); the run yields a
result exactly when its last call succeeded — in particular a
non-rate-limited first failure ends the run immediately with `none` (the
model is a total function: no exception escapes). -/
theorem generateActivityInsights_retry_spec :
    ∀ (cfg : Config) (oc : Nat → CallOutcome) (act : GarminActivity)
      (allActs : Option (List GarminActivity)),
      isAIInsightsEnabled cfg = true →
      (1 ≤ (generateActivityInsights cfg oc act allActs).1.apiCalls ∧
        (generateActivityInsights cfg oc act allActs).1.apiCalls ≤ MAX_RETRIES) ∧
      (∀ j, j + 1 < (generateActivityInsights cfg oc act allActs).1.apiCalls →
        isRateLimited (oc (1 + j)) = true ∧ 1 + j < MAX_RETRIES) ∧
      ((generateActivityInsights cfg oc act allActs).1.retrySleeps.length + 1 =
        (generateActivityInsights cfg oc act allActs).1.apiCalls) ∧
      (∀ j (h : j < (generateActivityInsights cfg oc act allActs).1.retrySleeps.length),
        (generateActivityInsights cfg oc act allActs).1.retrySleeps.get ⟨j, h⟩ =
          (hintMs (detailsOf (oc (1 + j)))).getD (BASE_DELAY_MS * 2 ^ j)) ∧
      ((generateActivityInsights cfg oc act allActs).2.isSome = true ↔
        ∃ t, oc (1 + ((generateActivityInsights cfg oc act allActs).1.apiCalls - 1)) =
          CallOutcome.success t) ∧
      (∀ st stx ed, oc 1 = CallOutcome.failure st stx ed →
        isRateLimited (oc 1) = false →
        generateActivityInsights cfg oc act allActs = (⟨1, []⟩, none)) := by
  intro cfg oc act allActs he
  have hred : generateActivityInsights cfg oc act allActs = genAttempts oc 1 MAX_RETRIES := by
    simp [generateActivityInsights, he]
  rw [hred]
  refine ⟨⟨?_, ?_⟩, ?_, ?_, ?_, ?_, ?_⟩
  · exact genAttempts_calls_pos oc 2 1
  · exact genAttempts_calls_le oc MAX_RETRIES 1
  · intro j hj
    exact genAttempts_retry_rl oc MAX_RETRIES 1 j hj
  · exact genAttempts_sleeps_len oc MAX_RETRIES 1 rfl (by decide)
  · intro j hj
    rw [genAttempts_sleep_values oc MAX_RETRIES 1 j hj,
      show 1 + j - 1 = j from by omega]
  · exact genAttempts_success_iff oc MAX_RETRIES 1 (by decide)
  · intro st stx ed hoc hrl
    exact genAttempts_nonRL_stops oc 2 1 hoc hrl

/-- Witness for `generateActivityInsights_retry_spec`: an enabled
configuration whose first call fails with a plain 500 — the run stops at
one call, no sleeps, `none` result. -/
theorem generateActivityInsights_retry_spec_witness :
    generateActivityInsights ⟨true, "key"⟩
        (fun _ => CallOutcome.failure (some 500) none none) actW none =
      (⟨1, []⟩, none) ∧
    1 ≤ (generateActivityInsights ⟨true, "key"⟩
        (fun _ => CallOutcome.failure (some 500) none none) actW none).1.apiCalls := by
  constructor
  · exact (generateActivityInsights_retry_spec ⟨true, "key"⟩
      (fun _ => CallOutcome.failure (some 500) none none) actW none rfl).2.2.2.2.2
      (some 500) none none rfl (by decide)
  · exact (generateActivityInsights_retry_spec ⟨true, "key"⟩
      (fun _ => CallOutcome.failure (some 500) none none) actW none rfl).1.1
